import Mathlib

/-!
Shallow embedding of the MVT geometry encoder (`src/mvt/geom_to_proto.rs`)
and the file cache path scheme (`src/cache/filecache.rs`) of the t-rex
repository, together with theorems settling the specification claims.

Machine integers are modelled as `Nat` (for `u32`/`usize` bit patterns) and
`Int` (for `i32` values), with wrap-around made explicit via `% 2^32`.
-/

set_option maxRecDepth 2000

/-- Bit pattern (as a `Nat` below `2^32`) of an `i32` value, i.e. the result
of `v as u32` in Rust two's-complement semantics. -/
def u32 (v : Int) : Nat := (v % (2 : Int) ^ 32).toNat

/-- The `i32` value denoted by a 32-bit pattern, i.e. `n as i32` in Rust. -/
def i32 (n : Nat) : Int := if n < 2 ^ 31 then (n : Int) else (n : Int) - 2 ^ 32

/-- The `Command` enum of `geom_to_proto.rs`: `MoveTo = 1`, `LineTo = 2`,
`ClosePath = 7`. -/
def Command.MoveTo : Nat := 1

def Command.LineTo : Nat := 2

def Command.ClosePath : Nat := 7

/-- `CommandInteger::new(id, count)`: packs `((id as u32) & 0x7) | (count << 3)`;
the `u32` shift `count << 3` discards bits shifted past bit 31 (`% 2^32`). -/
def CommandInteger.new (id count : Nat) : Nat :=
  (id &&& 0x7) ||| ((count <<< 3) % 2 ^ 32)

/-- `CommandInteger::id`: the low 3 bits. -/
def CommandInteger.id (n : Nat) : Nat := n &&& 0x7

/-- `CommandInteger::count`: unsigned right shift by 3. -/
def CommandInteger.count (n : Nat) : Nat := n >>> 3

/-- `ParameterInteger::new(value)`: zigzag encoding
`((value << 1) ^ (value >> 31)) as u32` on `i32`.  The `i32` left shift keeps
the low 32 bits of the doubled bit pattern; `value >> 31` is an arithmetic
(sign-extending) shift, which on an `i32` value equals floor division by
`2^31`, i.e. Lean `Int` division by the positive constant `2^31`. -/
def ParameterInteger.new (v : Int) : Nat :=
  ((u32 v <<< 1) % 2 ^ 32) ^^^ u32 (v / 2 ^ 31)

/-- `ParameterInteger::value()`: zigzag decoding
`((p >> 1) as i32) ^ (-((p & 1) as i32))`, with a logical right shift on the
`u32` and the xor taken on 32-bit patterns. -/
def ParameterInteger.value (p : Nat) : Int :=
  i32 ((p >>> 1) ^^^ u32 (-((p &&& 1 : Nat) : Int)))

/-- `screen::Point` (tile-local `i32` coordinates). -/
structure Point where
  x : Int
  y : Int
deriving DecidableEq, Repr

/-- `screen::Point::origin()`. -/
def Point.origin : Point := ⟨0, 0⟩

/-- `screen::MultiPoint`. -/
structure MultiPoint where
  points : List Point
deriving DecidableEq, Repr

/-- `screen::LineString`. -/
structure LineString where
  points : List Point
deriving DecidableEq, Repr

/-- `screen::MultiLineString`. -/
structure MultiLineString where
  lines : List LineString
deriving DecidableEq, Repr

/-- `screen::Polygon`. -/
structure Polygon where
  rings : List LineString
deriving DecidableEq, Repr

/-- `CommandSequence(Vec<u32>)`: an ordered buffer of packed integers. -/
structure CommandSequence where
  seq : List Nat
deriving DecidableEq, Repr

/-- `CommandSequence::append(&mut self, other: &mut CommandSequence)`:
`Vec::append` moves all of `other`'s elements onto the end of `self`,
leaving `other` empty.  The in-place mutation of the pair `(self, other)`
is modelled by returning the updated pair. -/
def CommandSequence.append (s t : CommandSequence) :
    CommandSequence × CommandSequence :=
  (⟨s.seq ++ t.seq⟩, ⟨[]⟩)

/-- `impl EncodableGeom for screen::Point`: `encode_from` emits
`[MoveTo(1), zigzag(Δx), zigzag(Δy)]` relative to `startpos`. -/
def Point.encode_from (p startpos : Point) : List Nat :=
  [CommandInteger.new Command.MoveTo 1,
   ParameterInteger.new (p.x - startpos.x),
   ParameterInteger.new (p.y - startpos.y)]

/-- The parameter-emitting loop of `MultiPoint::encode_from`: each point is
delta-encoded against the running `(posx, posy)` cursor, which then advances
to that point. -/
def mp_params : List Point → Int → Int → List Nat
  | [], _, _ => []
  | pt :: rest, posx, posy =>
      ParameterInteger.new (pt.x - posx) ::
        ParameterInteger.new (pt.y - posy) :: mp_params rest pt.x pt.y

/-- `impl EncodableGeom for screen::MultiPoint`: one `MoveTo` whose count is
`self.points.len() as u32`, then the delta parameters. -/
def MultiPoint.encode_from (g : MultiPoint) (startpos : Point) : List Nat :=
  CommandInteger.new Command.MoveTo (g.points.length % 2 ^ 32) ::
    mp_params g.points startpos.x startpos.y

/-- The delta loop `for i in 1..len` of `LineString::encode_from`: emits the
zigzag deltas of each point against its predecessor. -/
def line_params : List Point → List Nat
  | p :: q :: rest =>
      ParameterInteger.new (q.x - p.x) ::
        ParameterInteger.new (q.y - p.y) :: line_params (q :: rest)
  | _ => []

/-- `impl EncodableGeom for screen::LineString`: guarded by
`self.points.len() > 0`; the first point is encoded as the `Point` case, then
a `LineTo` with count `(len - 1) as u32`, then the consecutive deltas. -/
def LineString.encode_from (l : LineString) (startpos : Point) : List Nat :=
  match l.points with
  | [] => []
  | p0 :: _ =>
      Point.encode_from p0 startpos ++
        CommandInteger.new Command.LineTo ((l.points.length - 1) % 2 ^ 32) ::
          line_params l.points

/-- `screen::LineString::encode_ring_from`: guarded only by
`self.points.len() > 0`; computes a `LineTo` count of `(len - 2) as u32`.
For a 1-point ring the `usize` subtraction `len - 2` underflows (a panic in
debug builds), modelled here as `none`; otherwise the first point is encoded
as the `Point` case, the loop `for i in 1..len-1` emits the consecutive
deltas of all points but the last (the duplicate closing vertex), and a
`ClosePath(1)` is appended. -/
def LineString.encode_ring_from (l : LineString) (startpos : Point) :
    Option (List Nat) :=
  match l.points with
  | [] => some []
  | [_] => none
  | p0 :: _ :: _ =>
      some (Point.encode_from p0 startpos ++
        CommandInteger.new Command.LineTo ((l.points.length - 2) % 2 ^ 32) ::
          (line_params l.points.dropLast ++
            [CommandInteger.new Command.ClosePath 1]))

/-- The loop of `MultiLineString::encode_from`: for each non-empty line the
encoded sequence is appended and the cursor `pos` is re-bound to the line's
last point (`line.points[line.points.len()-1]`); empty lines are skipped. -/
def mls_loop : List LineString → Point → List Nat → List Nat
  | [], _, seq => seq
  | l :: ls, pos, seq =>
      match l.points.getLast? with
      | none => mls_loop ls pos seq
      | some lastPt => mls_loop ls lastPt (seq ++ l.encode_from pos)

/-- `impl EncodableGeom for screen::MultiLineString`. -/
def MultiLineString.encode_from (g : MultiLineString) (startpos : Point) :
    List Nat :=
  mls_loop g.lines startpos []

/-- The loop of `Polygon::encode_from`: identical cursor threading to
`MultiLineString`, but each non-empty ring is encoded with
`encode_ring_from` (whose possible underflow propagates). -/
def poly_loop : List LineString → Point → List Nat → Option (List Nat)
  | [], _, seq => some seq
  | r :: rs, pos, seq =>
      match r.points.getLast? with
      | none => poly_loop rs pos seq
      | some lastPt =>
          match r.encode_ring_from pos with
          | none => none
          | some enc => poly_loop rs lastPt (seq ++ enc)

/-- `impl EncodableGeom for screen::Polygon`. -/
def Polygon.encode_from (g : Polygon) (startpos : Point) :
    Option (List Nat) :=
  poly_loop g.rings startpos []

/-- `EncodableGeom::encode`: `encode_from` from the origin. -/
def Polygon.encode (g : Polygon) : Option (List Nat) :=
  g.encode_from Point.origin

/-- `format!("{:03}", n)`: decimal rendering zero-padded to width 3. -/
def pad3 (n : Nat) : String :=
  let s := toString n
  if s.length ≥ 3 then s else String.mk (List.replicate (3 - s.length) '0') ++ s

/-- `Filecache { basepath }`. -/
structure Filecache where
  basepath : String

/-- `Filecache::path_for_tile`: shards `x` and `y` into `div 1000` /
`mod 1000` groups and joins
`basepath/tileset/zoom/x1/x2/y1/y2.pbf`. -/
def Filecache.path_for_tile (c : Filecache) (tileset_name : String)
    (zoom x y : Nat) : String :=
  c.basepath ++ "/" ++ tileset_name ++ "/" ++ toString zoom ++ "/" ++
    pad3 (x / 1000) ++ "/" ++ pad3 (x % 1000) ++ "/" ++
    pad3 (y / 1000) ++ "/" ++ pad3 (y % 1000) ++ ".pbf"

/-- Recognizer for the MVT structural invariant on command sequences: the
sequence parses as a run of commands where every `MoveTo`/`LineTo` command
integer with repeat count `c` is immediately followed by exactly `2 × c`
parameter integers, and every `ClosePath` command integer by none. -/
def well_formed : List Nat → Bool
  | [] => true
  | c :: rest =>
      if CommandInteger.id c = 1 ∨ CommandInteger.id c = 2 then
        decide (2 * CommandInteger.count c ≤ rest.length) &&
          well_formed (rest.drop (2 * CommandInteger.count c))
      else if CommandInteger.id c = 7 then well_formed rest
      else false
termination_by l => l.length
decreasing_by
  all_goals simp [List.length_drop]
  omega

example : Point.encode_from ⟨25, 17⟩ Point.origin = [9, 50, 34] := by decide

example : MultiPoint.encode_from ⟨[⟨5, 7⟩, ⟨3, 2⟩]⟩ Point.origin
    = [17, 10, 14, 3, 9] := by decide

example : LineString.encode_from ⟨[⟨2, 2⟩, ⟨2, 10⟩, ⟨10, 10⟩]⟩ Point.origin
    = [9, 4, 4, 18, 0, 16, 16, 0] := by decide

example : Polygon.encode ⟨[⟨[⟨3, 6⟩, ⟨8, 12⟩, ⟨20, 34⟩, ⟨3, 6⟩]⟩]⟩
    = some [9, 6, 12, 18, 10, 12, 24, 44, 15] := by decide

/-! ### Bit-level helper lemmas -/

theorem testBit_one_iff (k : Nat) : Nat.testBit 1 k = decide (k = 0) := by
  have h := @Nat.testBit_two_pow 0 k
  simpa [eq_comm] using h

theorem xor_div_two (x y : Nat) : (x ^^^ y) / 2 = x / 2 ^^^ y / 2 := by
  apply Nat.eq_of_testBit_eq
  intro i
  simp [Nat.testBit_div_two, Nat.testBit_xor]

theorem xor_two_pow_eq_add {i x : Nat} (h : x < 2 ^ i) :
    x ^^^ 2 ^ i = 2 ^ i + x := by
  apply Nat.eq_of_testBit_eq
  intro j
  have hadd := Nat.testBit_mul_pow_two_add 1 h j
  rw [Nat.mul_one] at hadd
  rw [hadd, Nat.testBit_xor, Nat.testBit_two_pow, testBit_one_iff]
  rcases Nat.lt_trichotomy j i with hj | hj | hj
  · have hne : i ≠ j := Nat.ne_of_gt hj
    simp [hj, hne]
  · subst hj
    have hx : Nat.testBit x j = false := Nat.testBit_lt_two_pow h
    simp [hx]
  · have h1 : ¬ j < i := Nat.not_lt.mpr (Nat.le_of_lt hj)
    have hx : Nat.testBit x j = false :=
      Nat.testBit_lt_two_pow
        (Nat.lt_trans h (Nat.pow_lt_pow_right (by norm_num) hj))
    have h2 : i ≠ j := Nat.ne_of_lt hj
    have h3 : j - i ≠ 0 := by omega
    simp [h1, hx, h2, h3]

theorem command_new_eq {idv count : Nat} (hid : idv < 8) (hc : count < 2 ^ 29) :
    CommandInteger.new idv count = 8 * count + idv := by
  unfold CommandInteger.new
  have hand : idv &&& 0x7 = idv := by
    have h7 : (0x7 : Nat) = 2 ^ 3 - 1 := rfl
    rw [h7, Nat.and_pow_two_sub_one_eq_mod, Nat.mod_eq_of_lt hid]
  have h8 : count <<< 3 = 2 ^ 3 * count := by
    rw [Nat.shiftLeft_eq, Nat.mul_comm]
  have hlt : 2 ^ 3 * count < 2 ^ 32 := by omega
  rw [hand, h8, Nat.mod_eq_of_lt hlt, Nat.lor_comm,
    ← Nat.mul_add_lt_is_or hid count]

theorem command_id_eval {idv count : Nat} (hid : idv < 8) (hc : count < 2 ^ 29) :
    CommandInteger.id (CommandInteger.new idv count) = idv := by
  rw [command_new_eq hid hc]
  unfold CommandInteger.id
  have h7 : (0x7 : Nat) = 2 ^ 3 - 1 := rfl
  rw [h7, Nat.and_pow_two_sub_one_eq_mod]
  omega

theorem command_count_eval {idv count : Nat} (hid : idv < 8)
    (hc : count < 2 ^ 29) :
    CommandInteger.count (CommandInteger.new idv count) = count := by
  rw [command_new_eq hid hc]
  unfold CommandInteger.count
  rw [Nat.shiftRight_eq_div_pow]
  omega

theorem zigzag_roundtrip {v : Int} (h1 : -(2 ^ 31) ≤ v) (h2 : v < 2 ^ 31) :
    ParameterInteger.value (ParameterInteger.new v) = v := by
  rcases le_or_lt 0 v with hv | hv
  · -- nonnegative values: zigzag to 2·v
    have hu : u32 v = v.toNat := by
      unfold u32
      rw [Int.emod_eq_of_lt hv (by omega)]
    have hd : v / 2 ^ 31 = 0 := by omega
    have hnew : ParameterInteger.new v = v.toNat * 2 := by
      unfold ParameterInteger.new
      rw [hu, hd, Nat.shiftLeft_eq, pow_one]
      have hlt : v.toNat * 2 < 2 ^ 32 := by omega
      have hz : u32 0 = 0 := by decide
      rw [Nat.mod_eq_of_lt hlt, hz, Nat.xor_zero]
    rw [hnew]
    unfold ParameterInteger.value
    have hmod : v.toNat * 2 &&& 1 = 0 := by
      rw [Nat.and_one_is_mod]; omega
    have hsh : (v.toNat * 2) >>> 1 = v.toNat := by
      rw [Nat.shiftRight_eq_div_pow]; omega
    rw [hmod, hsh]
    have hz : u32 (-((0 : Nat) : Int)) = 0 := by decide
    rw [hz, Nat.xor_zero]
    unfold i32
    rw [if_pos (by omega)]
    omega
  · -- negative values: zigzag to the complement of 2·(v + 2^32)
    have hm0 : (0 : Int) ≤ v + 2 ^ 32 := by omega
    set m : Nat := (v + 2 ^ 32).toNat with hm
    have hmv : (m : Int) = v + 2 ^ 32 := Int.toNat_of_nonneg hm0
    have hm1 : 2 ^ 31 ≤ m := by omega
    have hm2 : m < 2 ^ 32 := by omega
    have hu : u32 v = m := by
      unfold u32
      have : v % 2 ^ 32 = v + 2 ^ 32 := by omega
      rw [this]
    have hd : v / 2 ^ 31 = -1 := by omega
    have hone : u32 (-1) = 2 ^ 32 - 1 := by unfold u32; omega
    have honeN : u32 (-((1 : Nat) : Int)) = 2 ^ 32 - 1 := by
      rw [Nat.cast_one]; exact hone
    have hnew : ParameterInteger.new v
        = (2 * m - 2 ^ 32) ^^^ (2 ^ 32 - 1) := by
      unfold ParameterInteger.new
      rw [hu, hd, hone, Nat.shiftLeft_eq, pow_one]
      have harg : (m * 2) % 2 ^ 32 = 2 * m - 2 ^ 32 := by omega
      rw [harg]
    rw [hnew]
    unfold ParameterInteger.value
    set a : Nat := 2 * m - 2 ^ 32 with ha
    have hmod : (a ^^^ (2 ^ 32 - 1)) &&& 1 = 1 := by
      rw [Nat.and_one_is_mod, Nat.xor_mod_two_eq]
      omega
    have hsh : (a ^^^ (2 ^ 32 - 1)) >>> 1
        = (m - 2 ^ 31) ^^^ (2 ^ 31 - 1) := by
      rw [Nat.shiftRight_eq_div_pow, pow_one, xor_div_two]
      have ha2 : a / 2 = m - 2 ^ 31 := by omega
      have hb2 : (2 ^ 32 - 1 : Nat) / 2 = 2 ^ 31 - 1 := by omega
      rw [ha2, hb2]
    rw [hmod, hsh, honeN]
    have hmask : (2 ^ 31 - 1 : Nat) ^^^ (2 ^ 32 - 1) = 2 ^ 31 := by
      have hstep : (2 ^ 31 - 1 : Nat) ^^^ 2 ^ 31 = 2 ^ 31 + (2 ^ 31 - 1) :=
        xor_two_pow_eq_add (by omega)
      have hrepr : (2 ^ 32 - 1 : Nat) = (2 ^ 31 - 1) ^^^ 2 ^ 31 := by
        rw [hstep]; omega
      rw [hrepr, Nat.xor_cancel_left]
    rw [Nat.xor_assoc, hmask, xor_two_pow_eq_add (by omega)]
    unfold i32
    rw [if_neg (by omega)]
    omega

/-- C6: zigzag round trip: for every `i32` value `v`,
`ParameterInteger::new(v).value() == v`. -/
theorem c6_zigzag_roundtrip (v : Int) (h1 : -(2 ^ 31) ≤ v) (h2 : v < 2 ^ 31) :
    ParameterInteger.value (ParameterInteger.new v) = v :=
  zigzag_roundtrip h1 h2

theorem c6_zigzag_roundtrip_witness :
    -(2 ^ 31) ≤ (-2147483648 : Int) ∧ (-2147483648 : Int) < 2 ^ 31 ∧
      ParameterInteger.value (ParameterInteger.new (-2147483648)) =
        (-2147483648 : Int) :=
  ⟨by decide, by decide,
    c6_zigzag_roundtrip (-2147483648) (by decide) (by decide)⟩

/-- C7: command-integer round trip: for every id in
`{MoveTo = 1, LineTo = 2, ClosePath = 7}` and every representable count
(`count < 2^29`), `CommandInteger::new(id, count).id() == id` and
`CommandInteger::new(id, count).count() == count`. -/
theorem c7_command_roundtrip (idv count : Nat)
    (hid : idv = Command.MoveTo ∨ idv = Command.LineTo ∨
      idv = Command.ClosePath)
    (hc : count < 2 ^ 29) :
    CommandInteger.id (CommandInteger.new idv count) = idv ∧
      CommandInteger.count (CommandInteger.new idv count) = count := by
  have h8 : idv < 8 := by
    rcases hid with h | h | h <;> simp [h, Command.MoveTo, Command.LineTo,
      Command.ClosePath]
  exact ⟨command_id_eval h8 hc, command_count_eval h8 hc⟩

theorem c7_command_roundtrip_witness :
    ((2 : Nat) = Command.MoveTo ∨ (2 : Nat) = Command.LineTo ∨
      (2 : Nat) = Command.ClosePath) ∧ (3 : Nat) < 2 ^ 29 ∧
      CommandInteger.id (CommandInteger.new 2 3) = 2 ∧
      CommandInteger.count (CommandInteger.new 2 3) = 3 :=
  ⟨by decide, by decide, c7_command_roundtrip 2 3 (by decide) (by decide)⟩

/-! ### Command-sequence structure lemmas -/

theorem well_formed_nil : well_formed [] = true := by
  simp [well_formed]

theorem well_formed_cons (c : Nat) (rest : List Nat) :
    well_formed (c :: rest) =
      (if CommandInteger.id c = 1 ∨ CommandInteger.id c = 2 then
        decide (2 * CommandInteger.count c ≤ rest.length) &&
          well_formed (rest.drop (2 * CommandInteger.count c))
      else if CommandInteger.id c = 7 then well_formed rest
      else false) := by
  rw [well_formed]

theorem well_formed_cmd (idv k : Nat) (params tail : List Nat)
    (hid : idv = 1 ∨ idv = 2) (hk : k < 2 ^ 29)
    (hlen : params.length = 2 * k) :
    well_formed (CommandInteger.new idv k :: (params ++ tail))
      = well_formed tail := by
  have h8 : idv < 8 := by omega
  rw [well_formed_cons, command_id_eval h8 hk, command_count_eval h8 hk,
    if_pos hid]
  have hle : 2 * k ≤ (params ++ tail).length := by
    simp [List.length_append]; omega
  have hdrop : (params ++ tail).drop (2 * k) = tail := by
    rw [← hlen, List.drop_left]
  have hdec : decide (2 * k ≤ (params ++ tail).length) = true := by
    simp [List.length_append]; omega
  rw [hdrop, hdec, Bool.true_and]

theorem well_formed_close (tail : List Nat) :
    well_formed (CommandInteger.new 7 1 :: tail) = well_formed tail := by
  have hid := @command_id_eval 7 1 (by omega) (by omega)
  rw [well_formed_cons, hid]
  norm_num

theorem well_formed_append_aux : ∀ (n : Nat) (a b : List Nat),
    a.length ≤ n → well_formed a = true → well_formed b = true →
    well_formed (a ++ b) = true := by
  intro n
  induction n with
  | zero =>
      intro a b hlen ha hb
      have hnil : a = [] := List.eq_nil_of_length_eq_zero (by omega)
      subst hnil
      simpa using hb
  | succ n ih =>
      intro a b hlen ha hb
      match a with
      | [] => simpa using hb
      | c :: rest =>
          rw [List.cons_append, well_formed_cons]
          rw [well_formed_cons] at ha
          by_cases h12 : CommandInteger.id c = 1 ∨ CommandInteger.id c = 2
          · rw [if_pos h12] at ha ⊢
            simp only [Bool.and_eq_true, decide_eq_true_eq] at ha
            obtain ⟨hle, hwf⟩ := ha
            have hle2 : 2 * CommandInteger.count c ≤ (rest ++ b).length := by
              simp [List.length_append]; omega
            have hdrop : (rest ++ b).drop (2 * CommandInteger.count c)
                = rest.drop (2 * CommandInteger.count c) ++ b := by
              rw [List.drop_append_eq_append_drop,
                Nat.sub_eq_zero_of_le hle, List.drop_zero]
            rw [hdrop]
            have hrec := ih (rest.drop (2 * CommandInteger.count c)) b
              (by simp [List.length_drop] at *; omega) hwf hb
            have hdec : decide
                (2 * CommandInteger.count c ≤ (rest ++ b).length) = true := by
              simp [List.length_append]; omega
            rw [hdec, Bool.true_and]
            exact hrec
          · rw [if_neg h12] at ha ⊢
            by_cases h7 : CommandInteger.id c = 7
            · rw [if_pos h7] at ha ⊢
              exact ih rest b (by simp at hlen; omega) ha hb
            · rw [if_neg h7] at ha
              exact absurd ha (by simp)

theorem well_formed_append (a b : List Nat) (ha : well_formed a = true)
    (hb : well_formed b = true) : well_formed (a ++ b) = true :=
  well_formed_append_aux a.length a b le_rfl ha hb

theorem mp_params_length (pts : List Point) : ∀ (px py : Int),
    (mp_params pts px py).length = 2 * pts.length := by
  induction pts with
  | nil => intro px py; simp [mp_params]
  | cons p rest ih =>
      intro px py
      simp [mp_params, ih p.x p.y]
      omega

theorem line_params_length : ∀ (pts : List Point),
    (line_params pts).length = 2 * (pts.length - 1)
  | [] => by simp [line_params]
  | [p] => by simp [line_params]
  | p :: q :: rest => by
      have ih := line_params_length (q :: rest)
      simp [line_params, ih]
      simp at ih ⊢
      omega

theorem line_eq (p0 : Point) (rest : List Point) (s : Point) :
    LineString.encode_from ⟨p0 :: rest⟩ s
      = Point.encode_from p0 s ++
          CommandInteger.new Command.LineTo
            (((p0 :: rest).length - 1) % 2 ^ 32) ::
            line_params (p0 :: rest) := rfl

theorem ring_eq (p0 p1 : Point) (rest : List Point) (s : Point) :
    LineString.encode_ring_from ⟨p0 :: p1 :: rest⟩ s
      = some (Point.encode_from p0 s ++
          CommandInteger.new Command.LineTo
            (((p0 :: p1 :: rest).length - 2) % 2 ^ 32) ::
            (line_params (p0 :: p1 :: rest).dropLast ++
              [CommandInteger.new Command.ClosePath 1])) := rfl

theorem wf_point (p s : Point) : well_formed (p.encode_from s) = true := by
  have h := well_formed_cmd 1 1
    [ParameterInteger.new (p.x - s.x), ParameterInteger.new (p.y - s.y)] []
    (Or.inl rfl) (by norm_num) (by simp)
  simpa [Point.encode_from, Command.MoveTo, well_formed_nil] using h

theorem wf_multipoint (g : MultiPoint) (s : Point)
    (h : g.points.length < 2 ^ 29) :
    well_formed (g.encode_from s) = true := by
  have hmod : g.points.length % 2 ^ 32 = g.points.length :=
    Nat.mod_eq_of_lt (by omega)
  have hwf := well_formed_cmd 1 g.points.length
    (mp_params g.points s.x s.y) [] (Or.inl rfl) h
    (by rw [mp_params_length])
  unfold MultiPoint.encode_from
  rw [hmod]
  simpa [Command.MoveTo, well_formed_nil] using hwf

theorem wf_linestring (l : LineString) (s : Point)
    (h : l.points.length ≤ 2 ^ 29) :
    well_formed (l.encode_from s) = true := by
  obtain ⟨pts⟩ := l
  match pts with
  | [] => exact well_formed_nil
  | p0 :: rest =>
      rw [line_eq]
      simp only [LineString.points] at h
      have hmod : ((p0 :: rest).length - 1) % 2 ^ 32
          = (p0 :: rest).length - 1 :=
        Nat.mod_eq_of_lt (by simp at h ⊢; omega)
      apply well_formed_append _ _ (wf_point p0 s)
      have hcmd := well_formed_cmd 2 ((p0 :: rest).length - 1)
        (line_params (p0 :: rest)) [] (Or.inr rfl)
        (by simp at h ⊢; omega) (line_params_length (p0 :: rest))
      rw [hmod]
      simpa [Command.LineTo, well_formed_nil] using hcmd

theorem wf_ring (pts : List Point) (s : Point) (h2 : 2 ≤ pts.length)
    (hlen : pts.length ≤ 2 ^ 29 + 1) :
    ∃ out, LineString.encode_ring_from ⟨pts⟩ s = some out ∧
      well_formed out = true := by
  match pts with
  | [] => simp at h2
  | [p] => simp at h2
  | p0 :: p1 :: rest =>
      refine ⟨_, ring_eq p0 p1 rest s, ?_⟩
      simp only [List.length_cons] at hlen
      have hmod : ((p0 :: p1 :: rest).length - 2) % 2 ^ 32
          = (p0 :: p1 :: rest).length - 2 :=
        Nat.mod_eq_of_lt (by simp; omega)
      apply well_formed_append _ _ (wf_point p0 s)
      have hplen : (line_params (p0 :: p1 :: rest).dropLast).length
          = 2 * ((p0 :: p1 :: rest).length - 2) := by
        rw [line_params_length, List.length_dropLast]
        simp
      have hcmd := well_formed_cmd 2 ((p0 :: p1 :: rest).length - 2)
        (line_params (p0 :: p1 :: rest).dropLast)
        [CommandInteger.new Command.ClosePath 1] (Or.inr rfl)
        (by simp; omega) hplen
      rw [hmod]
      have hclose : well_formed [CommandInteger.new Command.ClosePath 1]
          = true := by
        have := well_formed_close []
        simpa [Command.ClosePath, well_formed_nil] using this
      simpa [Command.LineTo, hclose] using hcmd

theorem wf_mls_loop : ∀ (ls : List LineString) (pos : Point) (seq : List Nat),
    well_formed seq = true → (∀ l ∈ ls, l.points.length ≤ 2 ^ 29) →
    well_formed (mls_loop ls pos seq) = true := by
  intro ls
  induction ls with
  | nil => intro pos seq hs _; simpa [mls_loop] using hs
  | cons l rest ih =>
      intro pos seq hs hb
      rw [mls_loop]
      cases hlast : l.points.getLast? with
      | none => exact ih pos seq hs (fun x hx => hb x (by simp [hx]))
      | some q =>
          exact ih q _
            (well_formed_append _ _ hs (wf_linestring l pos (hb l (by simp))))
            (fun x hx => hb x (by simp [hx]))

theorem wf_poly_loop : ∀ (rs : List LineString) (pos : Point) (seq : List Nat),
    well_formed seq = true →
    (∀ r ∈ rs, 2 ≤ r.points.length ∧ r.points.length ≤ 2 ^ 29 + 1) →
    ∃ out, poly_loop rs pos seq = some out ∧ well_formed out = true := by
  intro rs
  induction rs with
  | nil => intro pos seq hs _; exact ⟨seq, rfl, hs⟩
  | cons r rest ih =>
      intro pos seq hs hb
      obtain ⟨hr2, hrlen⟩ := hb r (by simp)
      have hne : r.points ≠ [] := by
        intro hnil; rw [hnil] at hr2; simp at hr2
      rw [poly_loop]
      cases hlast : r.points.getLast? with
      | none => exact absurd (List.getLast?_eq_none_iff.mp hlast) hne
      | some q =>
          obtain ⟨enc, henc, hwfenc⟩ := wf_ring r.points pos hr2 hrlen
          have henc2 : r.encode_ring_from pos = some enc := by
            have : r = ⟨r.points⟩ := rfl
            rw [this]; exact henc
          rw [henc2]
          exact ih q _ (well_formed_append _ _ hs hwfenc)
            (fun x hx => hb x (by simp [hx]))

theorem mls_loop_acc : ∀ (ls : List LineString) (pos : Point) (seq : List Nat),
    mls_loop ls pos seq = seq ++ mls_loop ls pos [] := by
  intro ls
  induction ls with
  | nil => intro pos seq; simp [mls_loop]
  | cons l rest ih =>
      intro pos seq
      rw [mls_loop, mls_loop]
      cases hlast : l.points.getLast? with
      | none => exact ih pos seq
      | some q =>
          dsimp only
          rw [ih q (seq ++ l.encode_from pos), ih q ([] ++ l.encode_from pos)]
          simp

theorem poly_loop_acc : ∀ (rs : List LineString) (pos : Point) (seq : List Nat),
    poly_loop rs pos seq = (poly_loop rs pos []).map (seq ++ ·) := by
  intro rs
  induction rs with
  | nil => intro pos seq; simp [poly_loop]
  | cons r rest ih =>
      intro pos seq
      rw [poly_loop, poly_loop]
      cases hlast : r.points.getLast? with
      | none => exact ih pos seq
      | some q =>
          cases hr : r.encode_ring_from pos with
          | none => simp
          | some enc =>
              dsimp only
              rw [ih q (seq ++ enc), ih q ([] ++ enc)]
              cases poly_loop rest q [] with
              | none => simp
              | some out => simp

/-! ### Claim theorems -/

/-- C1: cursor threading across multi-part geometries: `MultiLineString` and
`Polygon` encode their parts in order with a running cursor initialised to
the starting cursor; a non-empty part is encoded from the current cursor,
its sequence appended, and the cursor advances to that part's last point;
empty parts are skipped and leave the cursor unchanged. -/
theorem c1_cursor_threading (s q : Point) (l : LineString)
    (ls : List LineString) :
    (MultiLineString.encode_from ⟨[]⟩ s = [] ∧
      Polygon.encode_from ⟨[]⟩ s = some []) ∧
    (l.points = [] →
      MultiLineString.encode_from ⟨l :: ls⟩ s
          = MultiLineString.encode_from ⟨ls⟩ s ∧
        Polygon.encode_from ⟨l :: ls⟩ s = Polygon.encode_from ⟨ls⟩ s) ∧
    (l.points.getLast? = some q →
      MultiLineString.encode_from ⟨l :: ls⟩ s
          = l.encode_from s ++ MultiLineString.encode_from ⟨ls⟩ q ∧
        Polygon.encode_from ⟨l :: ls⟩ s
          = (l.encode_ring_from s).bind
              (fun enc => (Polygon.encode_from ⟨ls⟩ q).map (enc ++ ·))) := by
  refine ⟨⟨rfl, rfl⟩, ?_, ?_⟩
  · intro hnil
    have hlast : l.points.getLast? = none := by rw [hnil]; rfl
    constructor
    · show mls_loop (l :: ls) s [] = mls_loop ls s []
      rw [mls_loop, hlast]
    · show poly_loop (l :: ls) s [] = poly_loop ls s []
      rw [poly_loop, hlast]
  · intro hlast
    constructor
    · show mls_loop (l :: ls) s []
        = l.encode_from s ++ mls_loop ls q []
      rw [mls_loop, hlast]
      dsimp only
      rw [mls_loop_acc ls q ([] ++ l.encode_from s)]
      simp
    · show poly_loop (l :: ls) s []
        = (l.encode_ring_from s).bind
            (fun enc => (poly_loop ls q []).map (enc ++ ·))
      rw [poly_loop, hlast]
      dsimp only
      cases hr : l.encode_ring_from s with
      | none => simp
      | some enc =>
          dsimp only
          rw [poly_loop_acc ls q ([] ++ enc)]
          simp

theorem c1_cursor_threading_witness :
    MultiLineString.encode_from
        ⟨[⟨[⟨2, 2⟩, ⟨2, 10⟩, ⟨10, 10⟩]⟩, ⟨[⟨1, 1⟩, ⟨3, 5⟩]⟩]⟩ Point.origin
      = LineString.encode_from ⟨[⟨2, 2⟩, ⟨2, 10⟩, ⟨10, 10⟩]⟩ Point.origin ++
          MultiLineString.encode_from ⟨[⟨[⟨1, 1⟩, ⟨3, 5⟩]⟩]⟩ ⟨10, 10⟩ :=
  ((c1_cursor_threading Point.origin ⟨10, 10⟩ ⟨[⟨2, 2⟩, ⟨2, 10⟩, ⟨10, 10⟩]⟩
      [⟨[⟨1, 1⟩, ⟨3, 5⟩]⟩]).2.2 (by decide)).1

/-- C2 counterexample: a 1-point LineString does NOT encode to the bare
three-integer Point encoding: the code appends a `LineTo` command integer
with repeat count 0 (the integer 2) after the MoveTo. -/
theorem c2_counterexample :
    LineString.encode_from ⟨[⟨25, 17⟩]⟩ Point.origin
        = Point.encode_from ⟨25, 17⟩ Point.origin
            ++ [CommandInteger.new Command.LineTo 0] ∧
      LineString.encode_from ⟨[⟨25, 17⟩]⟩ Point.origin
        ≠ Point.encode_from ⟨25, 17⟩ Point.origin := by
  constructor
  · decide
  · decide

/-- C2 (amended): for N = 0 the encoding is empty; for every N ≥ 1 the first
point is encoded exactly as the Point case and is always followed by a
`LineTo` command integer with count N-1 (so for N = 1 a bare `LineTo` with
count 0 and no parameters trails the Point encoding) and the 2(N-1) zigzag
deltas of each subsequent point relative to its predecessor. -/
theorem c2_open_path (l : LineString) (s : Point) :
    (l.points = [] → l.encode_from s = []) ∧
    (∀ p0 rest, l.points = p0 :: rest → l.points.length ≤ 2 ^ 29 →
      l.encode_from s
          = Point.encode_from p0 s ++
              CommandInteger.new Command.LineTo (l.points.length - 1) ::
                line_params l.points ∧
        CommandInteger.id
            (CommandInteger.new Command.LineTo (l.points.length - 1))
          = Command.LineTo ∧
        CommandInteger.count
            (CommandInteger.new Command.LineTo (l.points.length - 1))
          = l.points.length - 1 ∧
        (line_params l.points).length = 2 * (l.points.length - 1)) := by
  obtain ⟨pts⟩ := l
  dsimp only
  constructor
  · intro h
    subst h
    rfl
  · intro p0 rest hpts hlen
    subst hpts
    simp only [List.length_cons] at hlen
    have hmod : ((p0 :: rest).length - 1) % 2 ^ 32
        = (p0 :: rest).length - 1 := Nat.mod_eq_of_lt (by simp; omega)
    refine ⟨?_, ?_, ?_, line_params_length _⟩
    · rw [line_eq, hmod]
    · exact command_id_eval (by norm_num [Command.LineTo]) (by simp; omega)
    · exact command_count_eval (by norm_num [Command.LineTo]) (by simp; omega)

theorem c2_open_path_witness :
    LineString.encode_from ⟨[⟨2, 2⟩, ⟨2, 10⟩, ⟨10, 10⟩]⟩ Point.origin
      = [9, 4, 4, 18, 0, 16, 16, 0] := by
  have h := ((c2_open_path ⟨[⟨2, 2⟩, ⟨2, 10⟩, ⟨10, 10⟩]⟩ Point.origin).2
    ⟨2, 2⟩ [⟨2, 10⟩, ⟨10, 10⟩] rfl (by decide)).1
  rw [h]
  decide

/-- C3: ring encoding: for a ring with N ≥ 2 points, `encode_ring_from`
yields MoveTo(1) with the first point's deltas from the cursor, LineTo with
count N-2 followed by the deltas of the interior vertices (the duplicate
closing vertex is never delta-encoded), and a parameterless ClosePath(1);
the single-ring polygon `[(3,6),(8,12),(20,34),(3,6)]` encoded from the
origin yields `[9,6,12,18,10,12,24,44,15]`. -/
theorem c3_ring_encoding (l : LineString) (s : Point) (p0 p1 : Point)
    (rest : List Point) (hpts : l.points = p0 :: p1 :: rest)
    (hlen : l.points.length ≤ 2 ^ 29 + 1) :
    l.encode_ring_from s
        = some (Point.encode_from p0 s ++
            CommandInteger.new Command.LineTo (l.points.length - 2) ::
              (line_params l.points.dropLast ++
                [CommandInteger.new Command.ClosePath 1])) ∧
      CommandInteger.id
          (CommandInteger.new Command.LineTo (l.points.length - 2))
        = Command.LineTo ∧
      CommandInteger.count
          (CommandInteger.new Command.LineTo (l.points.length - 2))
        = l.points.length - 2 ∧
      (line_params l.points.dropLast).length = 2 * (l.points.length - 2) ∧
      CommandInteger.id (CommandInteger.new Command.ClosePath 1)
        = Command.ClosePath ∧
      CommandInteger.count (CommandInteger.new Command.ClosePath 1) = 1 ∧
      Polygon.encode_from ⟨[⟨[⟨3, 6⟩, ⟨8, 12⟩, ⟨20, 34⟩, ⟨3, 6⟩]⟩]⟩
          Point.origin
        = some [9, 6, 12, 18, 10, 12, 24, 44, 15] := by
  obtain ⟨pts⟩ := l
  dsimp only
  dsimp only at hpts hlen
  subst hpts
  simp only [List.length_cons] at hlen
  have hmod : ((p0 :: p1 :: rest).length - 2) % 2 ^ 32
      = (p0 :: p1 :: rest).length - 2 := Nat.mod_eq_of_lt (by simp; omega)
  refine ⟨?_, ?_, ?_, ?_, by decide, by decide, by decide⟩
  · rw [ring_eq, hmod]
  · exact command_id_eval (by norm_num [Command.LineTo]) (by simp; omega)
  · exact command_count_eval (by norm_num [Command.LineTo]) (by simp; omega)
  · rw [line_params_length, List.length_dropLast]
    simp

theorem c3_ring_encoding_witness :
    LineString.encode_ring_from ⟨[⟨3, 6⟩, ⟨8, 12⟩, ⟨20, 34⟩, ⟨3, 6⟩]⟩
        Point.origin
      = some [9, 6, 12, 18, 10, 12, 24, 44, 15] := by
  have h := (c3_ring_encoding ⟨[⟨3, 6⟩, ⟨8, 12⟩, ⟨20, 34⟩, ⟨3, 6⟩]⟩
    Point.origin ⟨3, 6⟩ ⟨8, 12⟩ [⟨20, 34⟩, ⟨3, 6⟩] rfl (by decide)).1
  rw [h]
  decide

/-- C4: `encode_ring_from` guards only `len > 0`, not `len ≥ 2`: the
embedded encoder succeeds (no `usize` underflow in `len - 2`) exactly when
the ring is empty or has at least 2 points; a 1-point ring hits the
underflow. -/
theorem c4_ring_guard (l : LineString) (s : Point) :
    (l.encode_ring_from s).isSome
      ↔ (l.points.length = 0 ∨ 2 ≤ l.points.length) := by
  obtain ⟨pts⟩ := l
  rcases pts with _ | ⟨p, _ | ⟨q, rest⟩⟩ <;>
    simp [LineString.encode_ring_from]

/-- C5: structural invariant of encoded sequences: for every geometry
variant (with representable counts, and rings of at least 2 points for
polygons), the output parses as a run of commands where each MoveTo/LineTo
command integer with count `c` is followed by exactly `2 × c` parameter
integers and each ClosePath by none. -/
theorem c5_structural_invariant (start : Point) :
    (∀ p : Point, well_formed (p.encode_from start) = true) ∧
    (∀ g : MultiPoint, g.points.length < 2 ^ 29 →
      well_formed (g.encode_from start) = true) ∧
    (∀ l : LineString, l.points.length ≤ 2 ^ 29 →
      well_formed (l.encode_from start) = true) ∧
    (∀ g : MultiLineString, (∀ l ∈ g.lines, l.points.length ≤ 2 ^ 29) →
      well_formed (g.encode_from start) = true) ∧
    (∀ g : Polygon,
      (∀ r ∈ g.rings, 2 ≤ r.points.length ∧ r.points.length ≤ 2 ^ 29 + 1) →
      ∃ out, g.encode_from start = some out ∧ well_formed out = true) :=
  ⟨fun p => wf_point p start,
   fun g h => wf_multipoint g start h,
   fun l h => wf_linestring l start h,
   fun g h => wf_mls_loop g.lines start [] well_formed_nil h,
   fun g h => wf_poly_loop g.rings start [] well_formed_nil h⟩

theorem c5_structural_invariant_witness :
    well_formed (Point.encode_from ⟨25, 17⟩ Point.origin) = true ∧
      well_formed (MultiPoint.encode_from ⟨[⟨5, 7⟩, ⟨3, 2⟩]⟩ Point.origin)
        = true ∧
      well_formed
          (LineString.encode_from ⟨[⟨2, 2⟩, ⟨2, 10⟩, ⟨10, 10⟩]⟩ Point.origin)
        = true ∧
      well_formed (MultiLineString.encode_from
          ⟨[⟨[⟨2, 2⟩, ⟨2, 10⟩, ⟨10, 10⟩]⟩, ⟨[⟨1, 1⟩, ⟨3, 5⟩]⟩]⟩ Point.origin)
        = true ∧
      (∃ out, Polygon.encode_from ⟨[⟨[⟨3, 6⟩, ⟨8, 12⟩, ⟨20, 34⟩, ⟨3, 6⟩]⟩]⟩
          Point.origin = some out ∧ well_formed out = true) :=
  ⟨(c5_structural_invariant Point.origin).1 _,
   (c5_structural_invariant Point.origin).2.1 _ (by decide),
   (c5_structural_invariant Point.origin).2.2.1 _ (by decide),
   (c5_structural_invariant Point.origin).2.2.2.1 _ (by decide),
   (c5_structural_invariant Point.origin).2.2.2.2 _ (by decide)⟩

/-- C8 counterexample: the file cache path has no separate path component
after the low `y` group: the produced path for tile `(0, 1, 2)` under base
path `base` is `base/tileset/0/000/001/000/002.pbf`, which is not of the
form `base/tileset/0/000/001/000/002/<value>` for any `value`. -/
theorem c8_counterexample :
    ¬ ∃ value : String,
      Filecache.path_for_tile ⟨"base"⟩ "tileset" 0 1 2
        = "base/tileset/0/000/001/000/002/" ++ value := by
  rintro ⟨v, hv⟩
  have hpath : Filecache.path_for_tile ⟨"base"⟩ "tileset" 0 1 2
      = "base/tileset/0/000/001/000/002.pbf" := by decide
  rw [hpath] at hv
  have hd := congrArg String.data hv
  rw [String.data_append] at hd
  have hdot : ("base/tileset/0/000/001/000/002.pbf".data)[30]? = some '.' := by
    decide
  have hslash : ("base/tileset/0/000/001/000/002/".data ++ v.data)[30]?
      = some '/' := by
    rw [List.getElem?_append_left (by decide)]
    decide
  rw [hd, hslash] at hdot
  simp at hdot

set_option maxRecDepth 6000 in
theorem pad3_length : ∀ n < 1000, (pad3 n).length = 3 := by decide

/-- C8 (amended): `path_for_tile` splits `x` and `y` each into two 3-digit
zero-padded groups and produces
`basepath/tileset/zoom/x_hi/x_lo/y_hi/y_lo.pbf`: the low `y` group plus the
`.pbf` extension is the file name, so every directory level holds at most
1000 distinct entries (each group value is below 1000). -/
theorem c8_path_sharding (base tileset : String) (zoom x y : Nat)
    (hx : x < 65536) (hy : y < 65536) :
    Filecache.path_for_tile ⟨base⟩ tileset zoom x y
        = base ++ "/" ++ tileset ++ "/" ++ toString zoom ++ "/" ++
            pad3 (x / 1000) ++ "/" ++ pad3 (x % 1000) ++ "/" ++
            pad3 (y / 1000) ++ "/" ++ (pad3 (y % 1000) ++ ".pbf") ∧
      x / 1000 < 1000 ∧ x % 1000 < 1000 ∧
      y / 1000 < 1000 ∧ y % 1000 < 1000 ∧
      (pad3 (x / 1000)).length = 3 ∧ (pad3 (x % 1000)).length = 3 ∧
      (pad3 (y / 1000)).length = 3 ∧ (pad3 (y % 1000)).length = 3 :=
  ⟨by rw [Filecache.path_for_tile, String.append_assoc],
   by omega, by omega, by omega, by omega,
   pad3_length _ (by omega), pad3_length _ (by omega),
   pad3_length _ (by omega), pad3_length _ (by omega)⟩

theorem c8_path_sharding_witness :
    Filecache.path_for_tile ⟨"base"⟩ "tileset" 0 1 2
      = "base/tileset/0/000/001/000/002.pbf" := by
  have h := (c8_path_sharding "base" "tileset" 0 1 2
    (by decide) (by decide)).1
  rw [h]
  decide

/-- C9: `CommandSequence::append` moves the contents of `other` onto the
end of `self`, leaving `other` empty; the integers are transferred, not
copied (the total multiplicity of every integer is conserved). -/
theorem c9_append_transfer (s t : CommandSequence) :
    (CommandSequence.append s t).1.seq = s.seq ++ t.seq ∧
      (CommandSequence.append s t).2.seq = [] ∧
      ∀ n : Nat,
        (CommandSequence.append s t).1.seq.count n +
            (CommandSequence.append s t).2.seq.count n
          = s.seq.count n + t.seq.count n := by
  refine ⟨rfl, rfl, fun n => ?_⟩
  simp [CommandSequence.append, List.count_append]

/-- C10: an empty MultiPoint does not encode to the empty sequence but to
the single integer 1 (a MoveTo with repeat count 0 and no parameters),
unlike LineString, MultiLineString and Polygon, whose empty instances
encode to the empty sequence. -/
theorem c10_empty_multipoint (s : Point) :
    MultiPoint.encode_from ⟨[]⟩ s = [1] ∧
      MultiPoint.encode_from ⟨[]⟩ s ≠ [] ∧
      CommandInteger.id 1 = Command.MoveTo ∧
      CommandInteger.count 1 = 0 ∧
      LineString.encode_from ⟨[]⟩ s = [] ∧
      MultiLineString.encode_from ⟨[]⟩ s = [] ∧
      Polygon.encode_from ⟨[]⟩ s = some [] :=
  ⟨rfl, by simp [MultiPoint.encode_from], by decide, by decide, rfl, rfl, rfl⟩
